import Mathlib

/-!
Verification of the intelligent chunking and semantic consolidation pipeline.

A shallow embedding of the document-processing pipeline:

* `python-document-processor.py` — `DocumentChunker.create_chunks`,
  `process_document` (basic path);
* `advanced_document_processor.py` — `_create_intelligent_chunks`,
  `_analyze_sentiment`, `_merge_chunks`;
* `advanced-document-processor.py` — `_create_intelligent_chunks`,
  `_optimize_chunks_semantically`, `search_similar_chunks`, `process_document`.

Modelling conventions:

* Python strings are lists of characters (`Str`); helpers (`pyStrip`,
  `pyTailSlice`, `pySliceTo`, `pyFind`, …) reproduce the exact Python
  semantics, including the `s[-0:] = s` slice quirk and `str.find`'s
  first-occurrence search.
* The external ML capabilities (sentence segmentation, the LangChain text
  splitter, spaCy entities/tokens, sentence-transformer embeddings, and the
  numeric cosine kernel of `sklearn.metrics.pairwise.cosine_similarity`) are
  injected as function parameters, as mandated by the design (spec §9): the
  pipeline's own logic is embedded verbatim, the capabilities are arguments.
* Similarity scores and importance scores are rationals (`ℚ`); the literal
  threshold `0.8` is `mkRat 4 5`.
* Python's `list(set(xs))` enumerates a set in process-dependent hash order:
  it is modelled as `σ xs.dedup` where the enumeration order `σ` is a
  parameter assumed (in theorems) to permute its input.
* Fallible code returns `Except`: the `try/except` of `_merge_chunks` is
  modelled by an `Except`-valued cosine-matrix capability (the only statement
  in its body that can raise on well-typed input).
-/

namespace LegL

/-- Strings are modelled as lists of characters. -/
abbrev Str := List Char

/-- Python `str` whitespace: the characters removed by `str.strip()` and
    separating words for `str.split()`. -/
def isPySpace (c : Char) : Bool :=
  c = ' ' || c = '\t' || c = '\n' || c = '\r' || c = '\x0b' || c = '\x0c'

/-- Python `s.lstrip()`. -/
def pyLStrip (s : Str) : Str := s.dropWhile isPySpace

/-- Python `s.rstrip()`. -/
def pyRStrip (s : Str) : Str := (s.reverse.dropWhile isPySpace).reverse

/-- Python `s.strip()`. -/
def pyStrip (s : Str) : Str := pyRStrip (pyLStrip s)

/-- Python slice `s[-k:]` for a natural `k`.  For `k = 0` this is
    `s[0:] = s` (the Python `-0 = 0` quirk), otherwise the trailing
    `min k (len s)` characters. -/
def pyTailSlice (s : Str) (k : Nat) : Str :=
  if k = 0 then s else s.drop (s.length - k)

/-- Python slice `l[:t]` with a possibly negative `t`: a non-negative `t`
    takes the first `t` elements, a negative `t` drops the last `|t|`. -/
def pySliceTo (l : List α) (t : Int) : List α :=
  if 0 ≤ t then l.take t.toNat else l.take (l.length - (-t).toNat)

/-- Python `len(s.split())`: the number of maximal whitespace-free words. -/
def pyWordCount (s : Str) : Nat :=
  ((s.splitOnP isPySpace).filter (fun w => !w.isEmpty)).length

/-- Python `hay.find(needle)`: index of the first occurrence of `needle` in
    `hay`, `-1` when there is none. -/
def pyFind (hay needle : Str) : Int :=
  match (List.range (hay.length + 1)).find? (fun i => needle.isPrefixOf (hay.drop i)) with
  | some i => (i : Int)
  | none => -1

/-- Python `needle in hay`: substring containment. -/
def pySubstr (needle hay : Str) : Bool :=
  (List.range (hay.length + 1)).any (fun i => needle.isPrefixOf (hay.drop i))

/-- Python `s.lower()` (the lexicons and inputs used here are ASCII). -/
def pyLower (s : Str) : Str := s.map Char.toLower

/-- Python `s.count("\n\n")`: non-overlapping occurrences of a double
    newline (used for `paragraph_count`). -/
def pyCountNN : Str → Nat
  | [] => 0
  | '\n' :: '\n' :: rest => 1 + pyCountNN rest
  | _ :: rest => pyCountNN rest

/-- Decimal digit string of `n` (f-string interpolation of an index). -/
def natStr (n : Nat) : Str := Nat.toDigits 10 n

/-- Python `list(set(xs))` for string lists.  A Python `set` holds the
    distinct elements (`List.dedup`) and enumerates them in a
    process-dependent hash order: the enumeration order `σ` is a parameter
    (theorems hypothesise that `σ` permutes its input). -/
def pySetList (σ : List Str → List Str) (xs : List Str) : List Str :=
  σ xs.dedup

/-! ## `python-document-processor.py`: `DocumentChunker` -/

/-- A chunk produced by `DocumentChunker.create_chunks`.  The constant
    metadata entries (`isHeader`/`isFooter`/`isTable`/`isList` false,
    `confidence` 1.0, `language` "en") are omitted as literals. -/
structure PyChunk where
  chunkText : Str
  startPos : Int
  endPos : Int
  tokenCount : Nat
  chunkIndex : Nat
deriving DecidableEq, Repr

/-- Sealing the running buffer as a chunk record
    (`python-document-processor.py`, lines 62–76 and 89–104). -/
def mkPyChunk (cur : Str) (startPos : Int) (idx : Nat) : PyChunk :=
  { chunkText := pyStrip cur
    startPos := startPos
    endPos := startPos + (cur.length : Int)
    tokenCount := pyWordCount cur
    chunkIndex := idx }

/-- The sentence-accumulation loop of `DocumentChunker.create_chunks`
    (lines 55–104), over the sentence list produced by
    `re.split(r'(?<=[.!?])\s+', preprocess_text(text))`.  State: remaining
    sentences, `current_chunk`, `start_pos`, `chunk_index`. -/
def createChunksAux (maxC ovl : Nat) :
    List Str → Str → Int → Nat → List PyChunk
  | [], cur, startPos, idx =>
    if !(pyStrip cur).isEmpty then [mkPyChunk cur startPos idx] else []
  | s :: rest, cur, startPos, idx =>
    if (pyStrip s).isEmpty then createChunksAux maxC ovl rest cur startPos idx
    else if cur.length + s.length > maxC && !cur.isEmpty then
      let overlapText := if cur.length > ovl then pyTailSlice cur ovl else cur
      let newCur := overlapText ++ ' ' :: s
      mkPyChunk cur startPos idx ::
        createChunksAux maxC ovl rest newCur
          (startPos + (newCur.length : Int) - (overlapText.length : Int) - (s.length : Int))
          (idx + 1)
    else
      createChunksAux maxC ovl rest (if !cur.isEmpty then cur ++ ' ' :: s else s)
        startPos idx

/-- Embedding of `DocumentChunker.create_chunks` over the segmented sentences. -/
def create_chunks (maxC ovl : Nat) (sentences : List Str) : List PyChunk :=
  createChunksAux maxC ovl sentences [] 0 0

/-! ## `advanced_document_processor.py` -/

/-- A named-entity record (output of the entity-recognition capability;
    `description`, from `spacy.explain`, is part of the opaque payload). -/
structure EntityRec where
  text : Str
  label : Str
  startChar : Nat
  endChar : Nat
  description : Str
deriving DecidableEq, Repr

/-- The `ChunkMetadata` dataclass (lines 53–69). -/
structure ChunkMetadata where
  chunk_id : Str
  document_id : Str
  content : Str
  start_position : Int
  end_position : Int
  chunk_index : Nat
  entities : List EntityRec
  keywords : List Str
  topics : List Str
  sentiment : String
  importance_score : ℚ
  legal_terms : List Str
  case_references : List Str
  statute_references : List Str
deriving DecidableEq, Repr

/-- Default record (only used as the `getD` fallback for in-range accesses). -/
def emptyChunkMeta : ChunkMetadata :=
  { chunk_id := [], document_id := [], content := [], start_position := 0
    end_position := 0, chunk_index := 0, entities := [], keywords := []
    topics := [], sentiment := "", importance_score := 0, legal_terms := []
    case_references := [], statute_references := [] }

/-- The fresh chunk record built at lines 223–238 / 250–265. -/
def mkIntelligentChunk (docId cur : Str) (chunkStart : Int) (idx : Nat) :
    ChunkMetadata :=
  { emptyChunkMeta with
    chunk_id := docId ++ "_chunk_".data ++ natStr idx
    document_id := docId
    content := pyStrip cur
    start_position := chunkStart
    end_position := chunkStart + (cur.length : Int)
    chunk_index := idx }

/-- The accumulation loop of `_create_intelligent_chunks`
    (`advanced_document_processor.py`, lines 219–266), over the sentence list
    from `_split_into_sentences` (spaCy capability; it strips every sentence
    and drops blank ones).  Note line 242–243: `chunk_start` is updated with
    `len(current_chunk) - len(sentence)` after `current_chunk` has already
    been reassigned to `sentence`, so the increment is `0`. -/
def intelligentChunksAux (docId : Str) :
    List Str → Str → Int → Nat → List ChunkMetadata
  | [], cur, chunkStart, idx =>
    if !cur.isEmpty then [mkIntelligentChunk docId cur chunkStart idx] else []
  | s :: rest, cur, chunkStart, idx =>
    if cur.length + s.length > 1000 && !cur.isEmpty then
      let newCur := s
      mkIntelligentChunk docId cur chunkStart idx ::
        intelligentChunksAux docId rest newCur
          (chunkStart + (newCur.length : Int) - (s.length : Int)) (idx + 1)
    else
      intelligentChunksAux docId rest
        (if !cur.isEmpty then cur ++ ' ' :: s else s) chunkStart idx

/-- Embedding of `_create_intelligent_chunks` (lines 207–268), given the segmenter's
    sentences. -/
def create_intelligent_chunks (docId : Str) (sentences : List Str) :
    List ChunkMetadata :=
  intelligentChunksAux docId sentences [] 0 0

/-- The positive lexicon of `_analyze_sentiment` (line 396). -/
def positive_words : List Str :=
  ["good".data, "favorable".data, "positive".data, "beneficial".data,
    "advantageous".data]

/-- The negative lexicon of `_analyze_sentiment` (line 397). -/
def negative_words : List Str :=
  ["bad".data, "negative".data, "harmful".data, "detrimental".data,
    "adverse".data]

/-- Embedding of `_analyze_sentiment` (lines 389–411): `sum(1 for word in WORDS if word in
    text.lower())` counts how many lexicon words occur (as substrings) in the
    lower-cased content — one per word, regardless of multiplicity. -/
def analyze_sentiment (text : Str) : String :=
  let posCount := (positive_words.filter (fun w => pySubstr w (pyLower text))).length
  let negCount := (negative_words.filter (fun w => pySubstr w (pyLower text))).length
  if posCount > negCount then "positive"
  else if negCount > posCount then "negative"
  else "neutral"

/-- The similarity threshold `0.8` of lines 442 and 357. -/
def simThreshold : ℚ := mkRat 4 5

/-- The inner scan of `_merge_chunks` (lines 440–443): the not-yet-consumed
    indices `j > i` whose similarity with the anchor `i` strictly exceeds the
    threshold.  (`_optimize_chunks_semantically`, lines 356–359, performs the
    same scan; it adds each selected `j` to `used_indices` mid-scan, which
    cannot change later tests since every selected index is below the index
    being tested next.) -/
def similarIndices (sim : Nat → Nat → ℚ) (used : List Nat) (n i : Nat) :
    List Nat :=
  (List.range' (i + 1) (n - (i + 1))).filter
    (fun j => decide (j ∉ used) && decide (simThreshold < sim i j))

/-- The merge of one group with a non-empty member list
    (`advanced_document_processor.py`, lines 445–480): contents are joined
    with spaces in source order, entity lists are concatenated,
    keyword/legal-term/reference lists are concatenated and passed through
    `list(set(...))`, the importance score is the running maximum, and
    identity/offset metadata comes from the anchor (the end offset from the
    last member). -/
def mergeGroup (σ : List Str → List Str) (anchor : ChunkMetadata)
    (members : List ChunkMetadata) : ChunkMetadata :=
  { chunk_id := anchor.chunk_id
    document_id := anchor.document_id
    content := members.foldl (fun acc m => acc ++ ' ' :: m.content) anchor.content
    start_position := anchor.start_position
    end_position := (members.getLastD anchor).end_position
    chunk_index := anchor.chunk_index
    entities := members.foldl (fun acc m => acc ++ m.entities) anchor.entities
    keywords :=
      pySetList σ (members.foldl (fun acc m => acc ++ m.keywords) anchor.keywords)
    topics := anchor.topics
    sentiment := anchor.sentiment
    importance_score :=
      members.foldl (fun acc m => max acc m.importance_score) anchor.importance_score
    legal_terms :=
      pySetList σ (members.foldl (fun acc m => acc ++ m.legal_terms) anchor.legal_terms)
    case_references :=
      pySetList σ
        (members.foldl (fun acc m => acc ++ m.case_references) anchor.case_references)
    statute_references :=
      pySetList σ
        (members.foldl (fun acc m => acc ++ m.statute_references)
          anchor.statute_references) }

/-- The greedy anchor loop of `_merge_chunks` (lines 435–485); `fuel` counts
    the remaining iterations of `for i, chunk in enumerate(chunks)` and the
    anchor and its group members are added to `used_indices`. -/
def mergeChunksAux (σ : List Str → List Str) (chunks : List ChunkMetadata)
    (sim : Nat → Nat → ℚ) : Nat → Nat → List Nat → List ChunkMetadata
  | 0, _, _ => []
  | fuel + 1, i, used =>
    if i ∈ used then mergeChunksAux σ chunks sim fuel (i + 1) used
    else
      let sims := similarIndices sim used chunks.length i
      if sims.isEmpty then
        chunks.getD i emptyChunkMeta ::
          mergeChunksAux σ chunks sim fuel (i + 1) (i :: used)
      else
        mergeGroup σ (chunks.getD i emptyChunkMeta)
            (sims.map (fun j => chunks.getD j emptyChunkMeta)) ::
          mergeChunksAux σ chunks sim fuel (i + 1) (i :: used ++ sims)

/-- Embedding of `_merge_chunks` (lines 422–491).  The whole body sits in a `try/except`
    that returns the input unchanged on any exception; the only statement able
    to raise on well-typed input is `cosine_similarity(embeddings)` (e.g. on
    an empty or ragged embedding matrix), so the cosine capability is
    `Except`-valued. -/
def merge_chunks (σ : List Str → List Str)
    (cosineMatrix : List (List ℚ) → Except String (Nat → Nat → ℚ))
    (chunks : List ChunkMetadata) (embeddings : List (List ℚ)) :
    List ChunkMetadata :=
  if chunks.length ≤ 1 then chunks
  else
    match cosineMatrix embeddings with
    | Except.error _ => chunks
    | Except.ok sim => mergeChunksAux σ chunks sim chunks.length 0 []

/-- The (anchor, members) groups formed by the loop of `_merge_chunks`. -/
def mergeGroupsAux (sim : Nat → Nat → ℚ) (n : Nat) :
    Nat → Nat → List Nat → List (Nat × List Nat)
  | 0, _, _ => []
  | fuel + 1, i, used =>
    if i ∈ used then mergeGroupsAux sim n fuel (i + 1) used
    else
      let sims := similarIndices sim used n i
      (i, sims) :: mergeGroupsAux sim n fuel (i + 1) (i :: used ++ sims)

/-! ## `advanced-document-processor.py` -/

/-- An annotated chunk of `advanced-document-processor.py` with its
    `metadata` dict flattened into fields.  `merged_from` is `[]` when the
    key is absent (chunks fresh from annotation). -/
structure HChunk where
  chunk_id : Str
  document_id : Str
  content : Str
  chunk_index : Nat
  start_char : Int
  end_char : Int
  word_count : Nat
  sentence_count : Nat
  paragraph_count : Nat
  keywords : List Str
  entities : List EntityRec
  semantic_embedding : Option (List ℚ)
  chunk_type : String
  confidence_score : ℚ
  merged_from : List Str
deriving DecidableEq, Repr

/-- Default record (only used as the `getD` fallback for in-range accesses). -/
def emptyHChunk : HChunk :=
  { chunk_id := [], document_id := [], content := [], chunk_index := 0
    start_char := 0, end_char := 0, word_count := 0, sentence_count := 0
    paragraph_count := 0, keywords := [], entities := []
    semantic_embedding := none, chunk_type := "text", confidence_score := 1
    merged_from := [] }

/-- The external NLP capabilities consumed by `_create_intelligent_chunks`:
    spaCy entities, the noun/proper-noun lemma tokens collected for keywords,
    spaCy sentence counting, and the sentence-transformer embedding. -/
structure HCaps where
  entities : Str → List EntityRec
  keywordTokens : Str → List Str
  sentenceCount : Str → Nat
  embed : Str → List ℚ

/-- Steps 1–2 of `_create_intelligent_chunks`
    (`advanced-document-processor.py`, lines 252–327): enumerate the
    splitter's chunks, skip blank ones, annotate each with offsets recovered
    by `content.find(chunk_text)` and with the capability outputs;
    `keywords = list(set(keywords))[:10]`. -/
def hAnnotateChunks (caps : HCaps) (σ : List Str → List Str)
    (content docId : Str) (basicChunks : List Str) : List HChunk :=
  basicChunks.enum.filterMap (fun p =>
    if (pyStrip p.2).isEmpty then none
    else
      some
        { chunk_id := docId ++ "_chunk_".data ++ natStr p.1
          document_id := docId
          content := p.2
          chunk_index := p.1
          start_char := pyFind content p.2
          end_char := pyFind content p.2 + (p.2.length : Int)
          word_count := pyWordCount p.2
          sentence_count := caps.sentenceCount p.2
          paragraph_count := pyCountNN p.2 + 1
          keywords := (pySetList σ (caps.keywordTokens p.2)).take 10
          entities := caps.entities p.2
          semantic_embedding := some (caps.embed p.2)
          chunk_type := "text"
          confidence_score := 1
          merged_from := [] })

/-- Rendering one group of `_optimize_chunks_semantically` (lines 361–375):
    a singleton group passes the chunk through unchanged; a larger group
    yields a chunk with space-joined contents, the anchor's metadata, and
    `merged_from` listing the members' chunk ids in order. -/
def renderHGroup (chunks : List HChunk) : Nat × List Nat → HChunk
  | (i, []) => chunks.getD i emptyHChunk
  | (i, j :: js) =>
    let anchor := chunks.getD i emptyHChunk
    { anchor with
      chunk_id := anchor.document_id ++ "_merged_".data ++ natStr i
      content :=
        List.intercalate [' ']
          ((i :: j :: js).map (fun k => (chunks.getD k emptyHChunk).content))
      merged_from := (i :: j :: js).map (fun k => (chunks.getD k emptyHChunk).chunk_id) }

/-- The loop of `_optimize_chunks_semantically` (lines 350–375).  Unlike
    `_merge_chunks`, the anchor `i` itself is never added to `used_indices`
    (harmless: the scans only ever test indices above the current anchor). -/
def optimizeChunksAux (chunks : List HChunk) (sim : Nat → Nat → ℚ) :
    Nat → Nat → List Nat → List HChunk
  | 0, _, _ => []
  | fuel + 1, i, used =>
    if i ∈ used then optimizeChunksAux chunks sim fuel (i + 1) used
    else
      let sims := similarIndices sim used chunks.length i
      renderHGroup chunks (i, sims) ::
        optimizeChunksAux chunks sim fuel (i + 1) (used ++ sims)

/-- The (anchor, members) groups formed by `_optimize_chunks_semantically`. -/
def optimizeGroupsAux (sim : Nat → Nat → ℚ) (n : Nat) :
    Nat → Nat → List Nat → List (Nat × List Nat)
  | 0, _, _ => []
  | fuel + 1, i, used =>
    if i ∈ used then optimizeGroupsAux sim n fuel (i + 1) used
    else
      let sims := similarIndices sim used n i
      (i, sims) :: optimizeGroupsAux sim n fuel (i + 1) (used ++ sims)

/-- Embedding of `_optimize_chunks_semantically` (lines 334–377).  The numeric cosine
    kernel over the embedding matrix is the injected capability `cosM`. -/
def optimize_chunks_semantically (cosM : List (List ℚ) → Nat → Nat → ℚ)
    (chunks : List HChunk) : List HChunk :=
  if chunks.length ≤ 1 then chunks
  else
    let sim := cosM (chunks.map (fun c => c.semantic_embedding.getD []))
    optimizeChunksAux chunks sim chunks.length 0 []

/-- The group decomposition underlying `optimize_chunks_semantically`. -/
def hGroups (cosM : List (List ℚ) → Nat → Nat → ℚ) (chunks : List HChunk) :
    List (Nat × List Nat) :=
  optimizeGroupsAux (cosM (chunks.map (fun c => c.semantic_embedding.getD [])))
    chunks.length chunks.length 0 []

/-- Embedding of `_create_intelligent_chunks` (lines 252–332) = annotation followed by
    semantic optimization. -/
def hCreateIntelligentChunks (caps : HCaps) (σ : List Str → List Str)
    (cosM : List (List ℚ) → Nat → Nat → ℚ) (content docId : Str)
    (basicChunks : List Str) : List HChunk :=
  optimize_chunks_semantically cosM (hAnnotateChunks caps σ content docId basicChunks)

/-- Stable insertion into a list sorted descending by score: the new element
    goes in front of the first element whose score is `≤` its own, so equal
    scores keep insertion order.  Folding it over the list reproduces
    Python's stable `list.sort(key=lambda x: x[0], reverse=True)`. -/
def insertDesc (x : ℚ × HChunk) : List (ℚ × HChunk) → List (ℚ × HChunk)
  | [] => [x]
  | y :: ys => if y.1 ≤ x.1 then x :: y :: ys else y :: insertDesc x ys

/-- Stable sort, descending by score (model of line 406). -/
def sortDesc : List (ℚ × HChunk) → List (ℚ × HChunk)
  | [] => []
  | x :: xs => insertDesc x (sortDesc xs)

/-- The per-chunk similarity list of `search_similar_chunks` (lines 398–403):
    chunks whose `semantic_embedding` is missing or empty (falsy under
    `.get(...)`) are skipped. -/
def searchSimilarities (cosPair : List ℚ → List ℚ → ℚ)
    (queryEmbedding : List ℚ) (chunks : List HChunk) : List (ℚ × HChunk) :=
  chunks.filterMap (fun c =>
    match c.semantic_embedding with
    | none => none
    | some e => if e.isEmpty then none else some (cosPair queryEmbedding e, c))

/-- Embedding of `search_similar_chunks` (lines 389–407); `cosPair` is the numeric cosine
    capability and `queryEmbedding` the encoded query. -/
def search_similar_chunks (cosPair : List ℚ → List ℚ → ℚ)
    (queryEmbedding : List ℚ) (chunks : List HChunk) (topK : Int) :
    List HChunk :=
  if chunks.isEmpty then []
  else
    (pySliceTo (sortDesc (searchSimilarities cosPair queryEmbedding chunks)) topK).map
      Prod.snd

/-- The extraction metadata record (`_extract_content` collaborators). -/
structure HMetadata where
  title : Option String
  page_count : Option Nat
  paragraph_count : Option Nat
  extraction_method : Option String
deriving DecidableEq, Repr

/-- The `ProcessingResult` dataclass (lines 62–72); `processing_time`
    (wall clock) is omitted. -/
structure ProcessingResult where
  document_id : Str
  title : String
  content : Str
  chunks : List HChunk
  metadata : Option HMetadata
  success : Bool
  error_message : Option String
deriving Repr

/-- Embedding of `process_document` (`advanced-document-processor.py`, lines 113–157).
    Text extraction is an external collaborator whose outcome — extracted
    `(content, metadata)` or a raised error — is the `extracted` argument;
    `basicChunksOf` is the LangChain splitter capability. -/
def process_document_h (caps : HCaps) (σ : List Str → List Str)
    (cosM : List (List ℚ) → Nat → Nat → ℚ)
    (extracted : Except String (Str × HMetadata)) (docId : Str)
    (basicChunksOf : Str → List Str) : ProcessingResult :=
  match extracted with
  | Except.error e =>
    { document_id := docId, title := "Unknown", content := [], chunks := []
      metadata := none, success := false, error_message := some e }
  | Except.ok (content, md) =>
    if (pyStrip content).isEmpty then
      { document_id := docId, title := md.title.getD "Unknown"
        content := content, chunks := [], metadata := some md
        success := false
        error_message := some "No content extracted from document" }
    else
      { document_id := docId, title := md.title.getD "Unknown"
        content := content
        chunks := hCreateIntelligentChunks caps σ cosM content docId
          (basicChunksOf content)
        metadata := some md, success := true, error_message := none }

/-! ## `python-document-processor.py`: `process_document` -/

/-- The JSON response of `process_document` in
    `python-document-processor.py`.  `word_document` (the rendered Word
    file — an external collaborator) is produced by the injected renderer. -/
structure PyProcResult where
  error : Option String
  chunks : List PyChunk
  word_document : Str
  chunk_count : Nat
  total_tokens : Nat
deriving Repr

/-- The failure record built in the `except` branch (lines 255–262). -/
def pyErrorResult (msg : String) : PyProcResult :=
  { error := some msg, chunks := [], word_document := [], chunk_count := 0
    total_tokens := 0 }

/-- Embedding of `process_document` (lines 174–262), basic path.  The advanced path needs
    an on-disk file plus the optional advanced module and falls back here
    when either is unavailable or fails.  A blank `text` raises
    `ValueError("No text content provided")`, caught by the function's own
    `except`, which returns the structured failure record.  `segment` is the
    preprocessing + `re.split(r'(?<=[.!?])\s+', ...)` sentence segmentation of
    `create_chunks`, `render` the Word-document builder. -/
def process_document_py (segment : Str → List Str)
    (render : List PyChunk → Str) (text : Str) (maxC ovl : Nat) :
    PyProcResult :=
  if (pyStrip text).isEmpty then pyErrorResult "No text content provided"
  else
    let chunks := create_chunks maxC ovl (segment text)
    { error := none, chunks := chunks, word_document := render chunks
      chunk_count := chunks.length
      total_tokens := (chunks.map (fun c => c.tokenCount)).sum }

/-! ## Derived notions used by the claims -/

/-- The source chunks referenced by one output chunk of consolidation: its
    `merged_from` list, or itself as a singleton passthrough. -/
def consumedIds (out : List HChunk) : List Str :=
  (out.map (fun c => if c.merged_from.isEmpty then [c.chunk_id] else c.merged_from)).flatten

/-- Total count of source chunks referenced across all `merged_from` lists
    plus singleton passthroughs. -/
def sourceRefCount (out : List HChunk) : Nat :=
  (out.map (fun c => if c.merged_from.isEmpty then 1 else c.merged_from.length)).sum

/-- Modelled from the spec: "the trailing `overlap_size` characters of the
    sealed buffer" — literally the trailing `min k (len s)` characters,
    without the Python `-0` slice quirk. -/
def specTrailingChars (k : Nat) (s : Str) : Str := s.drop (s.length - k)

/-- Modelled from the spec claim: "the count of positive-lexicon occurrences
    in the lower-cased content" — the total number of occurrence positions of
    the lexicon's words in the lower-cased text. -/
def specOccurrenceCount (lex : List Str) (text : Str) : Nat :=
  (lex.map (fun w =>
    ((List.range ((pyLower text).length + 1)).filter
      (fun i => w.isPrefixOf ((pyLower text).drop i))).length)).sum

/-- Whether a string's last character (if any) is non-whitespace. -/
def endsNonspace (s : Str) : Bool :=
  match s.getLast? with
  | none => true
  | some c => !isPySpace c

/-- Whether a string's first character (if any) is non-whitespace. -/
def headNonspace (s : Str) : Bool :=
  match s.head? with
  | none => true
  | some c => !isPySpace c

/-- The shape of every sentence produced by the segmentation
    `re.split(r'(?<=[.!?])\s+', cleaned)` over cleaned text that has been
    whitespace-collapsed and stripped: non-empty, with non-whitespace first
    and last characters (each split point consumes the whitespace run, and
    every non-final sentence ends in `.`, `!` or `?`). -/
def sentenceShaped (s : Str) : Bool :=
  !s.isEmpty && headNonspace s && endsNonspace s

/-- Two adjacent chunks produced by a buffer split share a non-empty link of
    at most `ovl` characters: a suffix of the sealed chunk's text that the
    following chunk's text begins with. -/
def overlapLinked (ovl : Nat) (c c' : PyChunk) : Prop :=
  ∃ t : Str, t ≠ [] ∧ t.length ≤ ovl ∧ t <:+ c.chunkText ∧ t <+: c'.chunkText

/-- One group of `_merge_chunks` as it is rendered into an output chunk
    (lines 445–483): a singleton passes `chunks[i]` through, a larger group
    is merged by `mergeGroup`. -/
def renderUGroup (σ : List Str → List Str) (chunks : List ChunkMetadata) :
    Nat × List Nat → ChunkMetadata
  | (i, []) => chunks.getD i emptyChunkMeta
  | (i, j :: js) =>
    mergeGroup σ (chunks.getD i emptyChunkMeta)
      ((j :: js).map (fun k => chunks.getD k emptyChunkMeta))

/-! ## Concrete capability instances and records for witnesses -/

/-- Trivial capability stubs (used to evaluate concrete runs). -/
def capsTriv : HCaps :=
  { entities := fun _ => [], keywordTokens := fun _ => []
    sentenceCount := fun _ => 0, embed := fun _ => [] }

/-- Capability stub returning two keyword tokens for every chunk. -/
def capsKW : HCaps :=
  { entities := fun _ => [], keywordTokens := fun _ => ["alpha".data, "beta".data]
    sentenceCount := fun _ => 0, embed := fun _ => [] }

/-- Cosine kernel stub: every similarity is `0`. -/
def cosZero : List (List ℚ) → Nat → Nat → ℚ := fun _ _ _ => 0

/-- Cosine kernel stub: every similarity is `1`. -/
def cosOne : List (List ℚ) → Nat → Nat → ℚ := fun _ _ _ => 1

/-- A failing cosine-matrix capability (the raised `sklearn` shape error). -/
def cosErr : List (List ℚ) → Except String (Nat → Nat → ℚ) :=
  fun _ => Except.error "Incompatible dimension for X and Y matrices"

/-- Pairwise-cosine stub used for ranking witnesses: discriminates on the
    chunk embedding. -/
def cosPick : List ℚ → List ℚ → ℚ :=
  fun _ e => if e = [1] then 1 else 0

/-- A similarity matrix on three chunks where chunks 1 and 2 both exceed the
    threshold with anchor 0 but not with each other. -/
def sim3 : Nat → Nat → ℚ := fun i j =>
  if (i = 0 && j = 1) || (i = 1 && j = 0) || (i = 0 && j = 2) || (i = 2 && j = 0) then
    mkRat 9 10
  else if i = j then 1 else 0

/-- Concrete annotated chunks. -/
def hcA : HChunk :=
  { emptyHChunk with
    chunk_id := "a".data
    content := "alpha text".data
    semantic_embedding := some [1] }

def hcB : HChunk :=
  { emptyHChunk with
    chunk_id := "b".data
    content := "beta text".data
    semantic_embedding := some [2] }

def cmA : ChunkMetadata :=
  { emptyChunkMeta with
    chunk_id := "a".data
    content := "alpha text".data
    keywords := ["alpha".data]
    legal_terms := ["court".data]
    importance_score := mkRat 1 2 }

def cmB : ChunkMetadata :=
  { emptyChunkMeta with
    chunk_id := "b".data
    content := "beta text".data
    keywords := ["beta".data]
    legal_terms := ["judge".data]
    importance_score := 1 }

/-- An empty extraction-metadata record. -/
def mdNone : HMetadata :=
  { title := none, page_count := none, paragraph_count := none
    extraction_method := none }

/-! ## Lemmas on the Python string helpers -/

theorem endsNonspace_append {a b : Str} (hb : b ≠ []) :
    endsNonspace (a ++ b) = endsNonspace b := by
  unfold endsNonspace
  rw [List.getLast?_append]
  have hs : b.getLast?.isSome := List.getLast?_isSome.mpr hb
  cases h : b.getLast? with
  | none => rw [h] at hs; simp at hs
  | some c => simp [h, Option.or]

theorem endsNonspace_of_suffix {a b : Str} (h : a <:+ b) (ha : a ≠ [])
    (hb : endsNonspace b = true) : endsNonspace a = true := by
  obtain ⟨t, rfl⟩ := h
  rwa [endsNonspace_append ha] at hb

theorem pyRStrip_eq_self {s : Str} (h : endsNonspace s = true) :
    pyRStrip s = s := by
  unfold pyRStrip
  cases hs : s.reverse with
  | nil =>
    have : s = [] := by simpa using congrArg List.reverse hs
    subst this; rfl
  | cons c t =>
    have hc : s.getLast? = some c := by rw [← List.head?_reverse, hs]; rfl
    unfold endsNonspace at h
    rw [hc] at h
    simp only [Bool.not_eq_true'] at h
    rw [List.dropWhile_cons, if_neg (by simp [h]), ← hs, List.reverse_reverse]

theorem pyLStrip_ne_nil {s : Str} (hs : s ≠ []) (h : endsNonspace s = true) :
    pyLStrip s ≠ [] := by
  intro hnil
  unfold pyLStrip at hnil
  rw [List.dropWhile_eq_nil_iff] at hnil
  have hlast := hnil _ (List.getLast_mem hs)
  unfold endsNonspace at h
  rw [List.getLast?_eq_getLast s hs] at h
  simp only [Bool.not_eq_true'] at h
  rw [hlast] at h
  cases h

theorem pyLStrip_append {a : Str} (b : Str) (h : pyLStrip a ≠ []) :
    pyLStrip (a ++ b) = pyLStrip a ++ b := by
  unfold pyLStrip at h ⊢
  rw [List.dropWhile_append, if_neg (by simpa [List.isEmpty_iff] using h)]

theorem headNonspace_pyLStrip (s : Str) : headNonspace (pyLStrip s) = true := by
  unfold headNonspace pyLStrip
  cases h : (s.dropWhile isPySpace).head? with
  | none => rfl
  | some c =>
    have hd := List.head?_dropWhile_not isPySpace s
    rw [h] at hd
    simp [hd]

theorem suffix_pyLStrip {u s : Str} (hu : u <:+ s) (hne : u ≠ [])
    (hhead : headNonspace u = true) : u <:+ pyLStrip s := by
  induction s with
  | nil =>
    rw [List.suffix_nil] at hu
    exact absurd hu hne
  | cons c cs ih =>
    rcases hu with ⟨t, ht⟩
    cases t with
    | nil =>
      simp only [List.nil_append] at ht
      subst ht
      unfold headNonspace at hhead
      simp only [List.head?_cons, Bool.not_eq_true'] at hhead
      unfold pyLStrip
      rw [List.dropWhile_cons, if_neg (by simp [hhead])]
    | cons d t' =>
      have hcs : u <:+ cs := ⟨t', by injection ht with _ h2⟩
      have hrec := ih hcs
      unfold pyLStrip
      rw [List.dropWhile_cons]
      split
      · exact hrec
      · exact hcs.trans (List.suffix_cons c cs)

theorem pyStrip_eq_pyLStrip {s : Str} (h : endsNonspace s = true) :
    pyStrip s = pyLStrip s := by
  unfold pyStrip
  by_cases hs : pyLStrip s = []
  · rw [hs]; rfl
  · exact pyRStrip_eq_self
      (endsNonspace_of_suffix (List.dropWhile_suffix _) hs h)

theorem pyStrip_shaped {s : Str} (hh : headNonspace s = true)
    (he : endsNonspace s = true) : pyStrip s = s := by
  have hl : pyLStrip s = s := by
    unfold pyLStrip
    cases s with
    | nil => rfl
    | cons c cs =>
      unfold headNonspace at hh
      simp only [List.head?_cons, Bool.not_eq_true'] at hh
      rw [List.dropWhile_cons, if_neg (by simp [hh])]
  rw [pyStrip_eq_pyLStrip he, hl]

theorem sentenceShaped_parts {s : Str} (h : sentenceShaped s = true) :
    s ≠ [] ∧ headNonspace s = true ∧ endsNonspace s = true := by
  unfold sentenceShaped at h
  simp only [Bool.and_eq_true, Bool.not_eq_true', List.isEmpty_eq_false] at h
  exact ⟨h.1.1, h.1.2, h.2⟩

theorem sentenceShaped_strip_ne {s : Str} (h : sentenceShaped s = true) :
    (pyStrip s).isEmpty = false := by
  obtain ⟨h1, h2, h3⟩ := sentenceShaped_parts h
  rw [pyStrip_shaped h2 h3]
  simpa [List.isEmpty_eq_false] using h1

/-! ## The chunk assembler: overlap seeding (C2) -/

theorem overlap_facts {cur : Str} (ovl : Nat) (hovl : 0 < ovl) (hcne : cur ≠ []) :
    (if cur.length > ovl then pyTailSlice cur ovl else cur) <:+ cur
    ∧ (if cur.length > ovl then pyTailSlice cur ovl else cur) ≠ []
    ∧ (if cur.length > ovl then pyTailSlice cur ovl else cur).length ≤ ovl := by
  by_cases hlen : cur.length > ovl
  · rw [if_pos hlen]
    unfold pyTailSlice
    rw [if_neg (Nat.pos_iff_ne_zero.mp hovl)]
    refine ⟨List.drop_suffix _ _, ?_, ?_⟩
    · intro hnil
      have hl := congrArg List.length hnil
      rw [List.length_drop] at hl
      simp at hl
      omega
    · rw [List.length_drop]; omega
  · rw [if_neg hlen]
    exact ⟨List.suffix_rfl, hcne, by omega⟩

theorem createChunksAux_head (maxC ovl : Nat) :
    ∀ (ss : List Str) (cur : Str) (sp : Int) (idx : Nat),
      (∀ s ∈ ss, sentenceShaped s = true) → cur ≠ [] → endsNonspace cur = true →
      ∃ c rest ext, createChunksAux maxC ovl ss cur sp idx = c :: rest ∧
        c.chunkText = pyLStrip cur ++ ext := by
  intro ss
  induction ss with
  | nil =>
    intro cur sp idx _ hne he
    refine ⟨mkPyChunk cur sp idx, [], [], ?_, ?_⟩
    · simp only [createChunksAux]
      rw [if_pos]
      simp only [Bool.not_eq_true', List.isEmpty_eq_false, pyStrip_eq_pyLStrip he]
      exact pyLStrip_ne_nil hne he
    · show pyStrip cur = pyLStrip cur ++ []
      rw [List.append_nil, pyStrip_eq_pyLStrip he]
  | cons s rest ih =>
    intro cur sp idx hss hne he
    have hs := hss s (List.mem_cons_self s rest)
    have hrest : ∀ t ∈ rest, sentenceShaped t = true :=
      fun t ht => hss t (List.mem_cons_of_mem s ht)
    obtain ⟨hs1, hs2, hs3⟩ := sentenceShaped_parts hs
    simp only [createChunksAux]
    rw [if_neg (by simp [sentenceShaped_strip_ne hs])]
    split
    · refine ⟨mkPyChunk cur sp idx, _, [], rfl, ?_⟩
      show pyStrip cur = pyLStrip cur ++ []
      rw [List.append_nil, pyStrip_eq_pyLStrip he]
    · rw [if_pos (by simp only [Bool.not_eq_true', List.isEmpty_eq_false]; exact hne)]
      have hlne : pyLStrip cur ≠ [] := pyLStrip_ne_nil hne he
      have hne' : cur ++ ' ' :: s ≠ [] := by simp
      have he' : endsNonspace (cur ++ ' ' :: s) = true := by
        have hrw : cur ++ ' ' :: s = (cur ++ [' ']) ++ s := by simp
        rw [hrw, endsNonspace_append hs1]
        exact hs3
      obtain ⟨c, rest2, ext, heq, htext⟩ := ih (cur ++ ' ' :: s) sp idx hrest hne' he'
      refine ⟨c, rest2, ' ' :: s ++ ext, heq, ?_⟩
      rw [htext, pyLStrip_append _ hlne, List.append_assoc]

theorem createChunksAux_chain (maxC ovl : Nat) (hovl : 0 < ovl) :
    ∀ (ss : List Str) (cur : Str) (sp : Int) (idx : Nat),
      (∀ s ∈ ss, sentenceShaped s = true) → endsNonspace cur = true →
      List.Chain' (overlapLinked ovl) (createChunksAux maxC ovl ss cur sp idx) := by
  intro ss
  induction ss with
  | nil =>
    intro cur sp idx _ _
    simp only [createChunksAux]
    split
    · exact List.chain'_singleton _
    · exact List.chain'_nil
  | cons s rest ih =>
    intro cur sp idx hss he
    have hs := hss s (List.mem_cons_self s rest)
    have hrest : ∀ t ∈ rest, sentenceShaped t = true :=
      fun t ht => hss t (List.mem_cons_of_mem s ht)
    obtain ⟨hs1, hs2, hs3⟩ := sentenceShaped_parts hs
    simp only [createChunksAux]
    rw [if_neg (by simp [sentenceShaped_strip_ne hs])]
    split
    · next hsplit =>
      have hcne : cur ≠ [] := by
        simp only [Bool.and_eq_true, Bool.not_eq_true', List.isEmpty_eq_false] at hsplit
        exact hsplit.2
      obtain ⟨hsuf, hone, hlenovl⟩ := overlap_facts ovl hovl hcne
      have hovTends : endsNonspace
          (if cur.length > ovl then pyTailSlice cur ovl else cur) = true :=
        endsNonspace_of_suffix hsuf hone he
      have htne : pyLStrip (if cur.length > ovl then pyTailSlice cur ovl else cur) ≠ [] :=
        pyLStrip_ne_nil hone hovTends
      have hnc : endsNonspace
          ((if cur.length > ovl then pyTailSlice cur ovl else cur) ++ ' ' :: s) = true := by
        have hrw : (if cur.length > ovl then pyTailSlice cur ovl else cur) ++ ' ' :: s
            = ((if cur.length > ovl then pyTailSlice cur ovl else cur) ++ [' ']) ++ s := by
          simp
        rw [hrw, endsNonspace_append hs1]
        exact hs3
      rw [List.chain'_cons']
      constructor
      · intro y hy
        obtain ⟨c2, rest2, ext, heq, htext⟩ :=
          createChunksAux_head maxC ovl rest
            ((if cur.length > ovl then pyTailSlice cur ovl else cur) ++ ' ' :: s)
            (sp + (((if cur.length > ovl then pyTailSlice cur ovl else cur)
              ++ ' ' :: s).length : Int)
              - ((if cur.length > ovl then pyTailSlice cur ovl else cur).length : Int)
              - (s.length : Int))
            (idx + 1) hrest (by simp) hnc
        rw [heq] at hy
        simp only [List.head?_cons, Option.mem_def, Option.some.injEq] at hy
        subst hy
        refine ⟨pyLStrip (if cur.length > ovl then pyTailSlice cur ovl else cur),
          htne, ?_, ?_, ?_⟩
        · calc (pyLStrip (if cur.length > ovl then pyTailSlice cur ovl else cur)).length
              ≤ (if cur.length > ovl then pyTailSlice cur ovl else cur).length := by
                simp only [pyLStrip]
                exact List.IsSuffix.length_le (List.dropWhile_suffix _)
            _ ≤ ovl := hlenovl
        · show pyLStrip (if cur.length > ovl then pyTailSlice cur ovl else cur)
            <:+ pyStrip cur
          rw [pyStrip_eq_pyLStrip he]
          refine suffix_pyLStrip ?_ htne (headNonspace_pyLStrip _)
          calc pyLStrip (if cur.length > ovl then pyTailSlice cur ovl else cur)
              <:+ (if cur.length > ovl then pyTailSlice cur ovl else cur) := by
                simp only [pyLStrip]
                exact List.dropWhile_suffix _
            _ <:+ cur := hsuf
        · rw [htext, pyLStrip_append _ htne, List.append_assoc]
          exact List.prefix_append _ _
      · exact ih _ _ _ hrest hnc
    · by_cases hcn : cur = []
      · subst hcn
        rw [if_neg (by simp)]
        exact ih _ _ _ hrest hs3
      · rw [if_pos (by simp only [Bool.not_eq_true', List.isEmpty_eq_false]; exact hcn)]
        refine ih _ _ _ hrest ?_
        have hrw : cur ++ ' ' :: s = (cur ++ [' ']) ++ s := by simp
        rw [hrw, endsNonspace_append hs1]
        exact hs3

/-- C2 (corrected, amended claim): in `DocumentChunker.create_chunks`, when
    `overlap_size > 0` and the sentences have the shape the segmentation
    guarantees, every sealed chunk is followed by a chunk whose content
    begins with a non-empty trailing segment — at most `overlap_size`
    characters — of the sealed chunk's content (the carried-over overlap,
    shortened only by the `strip()` of a whitespace-leading slice). -/
theorem chunk_assembler_overlap (maxC ovl : Nat) (sentences : List Str)
    (hovl : 0 < ovl) (hsent : ∀ s ∈ sentences, sentenceShaped s = true) :
    List.Chain' (overlapLinked ovl) (create_chunks maxC ovl sentences) :=
  createChunksAux_chain maxC ovl hovl sentences [] 0 0 hsent rfl

theorem chunk_assembler_overlap_witness :
    0 < 2 ∧ (∀ s ∈ ["aaaa".data, "bbbb".data, "cc".data], sentenceShaped s = true)
    ∧ List.Chain' (overlapLinked 2)
        (create_chunks 6 2 ["aaaa".data, "bbbb".data, "cc".data]) :=
  ⟨by decide, by decide,
    chunk_assembler_overlap 6 2 ["aaaa".data, "bbbb".data, "cc".data]
      (by decide) (by decide)⟩

/-- C2 counterexample: with `overlap_size = 0` the claim's seeding rule fails
    on the code.  Sentences `["ab", "c"]` with `max_chunk_size = 2` force a
    split; the claim predicts the next buffer `"" + " " + "c"`, i.e. a second
    chunk `"c"` — the code's Python slice `current_chunk[-0:]` carries the
    whole buffer instead, so the second chunk is `"ab c"`. -/
theorem chunk_assembler_overlap_cex :
    ((create_chunks 2 0 ["ab".data, "c".data]).map (fun c => c.chunkText)
      = ["ab".data, "ab c".data])
    ∧ pyStrip (specTrailingChars 0 "ab".data ++ ' ' :: "c".data) = "c".data
    ∧ "ab c".data ≠ "c".data := by
  refine ⟨by decide, by decide, by decide⟩

/-! ## Chunk offsets (C6) -/

theorem pairwise_of_all {α : Type _} {R : α → α → Prop} :
    ∀ l : List α, (∀ a ∈ l, ∀ b ∈ l, R a b) → l.Pairwise R := by
  intro l
  induction l with
  | nil => intro _; exact List.Pairwise.nil
  | cons a t ih =>
    intro h
    refine List.Pairwise.cons ?_ (ih ?_)
    · exact fun b hb => h a (List.mem_cons_self a t) b (List.mem_cons_of_mem a hb)
    · exact fun x hx y hy => h x (List.mem_cons_of_mem a hx) y (List.mem_cons_of_mem a hy)

theorem intelligentChunksAux_offsets (docId : Str) :
    ∀ (ss : List Str) (cur : Str) (cs : Int) (idx : Nat),
      ∀ c ∈ intelligentChunksAux docId ss cur cs idx,
        c.start_position = cs ∧ c.start_position < c.end_position := by
  intro ss
  induction ss with
  | nil =>
    intro cur cs idx c hc
    simp only [intelligentChunksAux] at hc
    split at hc
    · next h =>
      simp only [List.mem_singleton] at hc
      subst hc
      have hne : cur ≠ [] := by
        simpa [Bool.not_eq_true', List.isEmpty_eq_false] using h
      have hpos : 0 < cur.length := List.length_pos.mpr hne
      refine ⟨rfl, ?_⟩
      show cs < cs + (cur.length : Int)
      omega
    · simp at hc
  | cons s rest ih =>
    intro cur cs idx c hc
    simp only [intelligentChunksAux] at hc
    split at hc
    · next h =>
      rcases List.mem_cons.mp hc with h1 | h2
      · subst h1
        simp only [Bool.and_eq_true, Bool.not_eq_true', List.isEmpty_eq_false] at h
        have hpos : 0 < cur.length := List.length_pos.mpr h.2
        refine ⟨rfl, ?_⟩
        show cs < cs + (cur.length : Int)
        omega
      · have heq : cs + (s.length : Int) - (s.length : Int) = cs := by omega
        rw [heq] at h2
        exact ih s cs (idx + 1) c h2
    · exact ih _ cs idx c hc

theorem hAnnotateChunks_offsets (caps : HCaps) (σ : List Str → List Str)
    (content docId : Str) (bcs : List Str) :
    ∀ c ∈ hAnnotateChunks caps σ content docId bcs,
      c.start_char < c.end_char := by
  intro c hc
  unfold hAnnotateChunks at hc
  rw [List.mem_filterMap] at hc
  obtain ⟨p, _, hpc⟩ := hc
  split at hpc
  · simp at hpc
  · next hb =>
    rw [Option.some.injEq] at hpc
    subst hpc
    show pyFind content p.2 < pyFind content p.2 + (p.2.length : Int)
    have hne : p.2 ≠ [] := by
      intro h0
      rw [h0] at hb
      exact hb rfl
    have hpos : 0 < p.2.length := List.length_pos.mpr hne
    omega

/-! ## The consolidation groups (shared by C1, C4, C6) -/

theorem optimizeGroupsAux_anchor_bound (sim : Nat → Nat → ℚ) (n : Nat) :
    ∀ (fuel i : Nat) (used : List Nat) (g : Nat × List Nat),
      g ∈ optimizeGroupsAux sim n fuel i used → i ≤ g.1 ∧ g.1 < i + fuel := by
  intro fuel
  induction fuel with
  | zero => intro i used g hg; simp [optimizeGroupsAux] at hg
  | succ f ih =>
    intro i used g hg
    simp only [optimizeGroupsAux] at hg
    split at hg
    · have := ih (i + 1) used g hg; omega
    · rcases List.mem_cons.mp hg with h | h
      · subst h; simp
      · have := ih (i + 1) _ g h; omega

theorem optimizeGroupsAux_anchors_sorted (sim : Nat → Nat → ℚ) (n : Nat) :
    ∀ (fuel i : Nat) (used : List Nat),
      ((optimizeGroupsAux sim n fuel i used).map Prod.fst).Pairwise (· < ·) := by
  intro fuel
  induction fuel with
  | zero => intro i used; simp [optimizeGroupsAux]
  | succ f ih =>
    intro i used
    simp only [optimizeGroupsAux]
    split
    · exact ih (i + 1) used
    · rw [List.map_cons, List.pairwise_cons]
      refine ⟨?_, ih (i + 1) _⟩
      intro a ha
      rw [List.mem_map] at ha
      obtain ⟨g, hg, rfl⟩ := ha
      have := optimizeGroupsAux_anchor_bound sim n f (i + 1) _ g hg
      omega

theorem optimizeChunksAux_eq_groups (chunks : List HChunk) (sim : Nat → Nat → ℚ) :
    ∀ (fuel i : Nat) (used : List Nat),
      optimizeChunksAux chunks sim fuel i used
        = (optimizeGroupsAux sim chunks.length fuel i used).map (renderHGroup chunks) := by
  intro fuel
  induction fuel with
  | zero => intro i used; rfl
  | succ f ih =>
    intro i used
    simp only [optimizeChunksAux, optimizeGroupsAux]
    split
    · exact ih (i + 1) used
    · rw [List.map_cons, ih (i + 1) _]

theorem renderHGroup_start_end (chunks : List HChunk) (i : Nat) (js : List Nat)
    (h : i < chunks.length) :
    ∃ d ∈ chunks, (renderHGroup chunks (i, js)).start_char = d.start_char
      ∧ (renderHGroup chunks (i, js)).end_char = d.end_char := by
  refine ⟨chunks.getD i emptyHChunk, ?_, ?_, ?_⟩
  · rw [List.getD_eq_getElem _ _ h]; exact List.getElem_mem h
  · cases js <;> rfl
  · cases js <;> rfl

theorem optimize_preserves_offsets (cosM : List (List ℚ) → Nat → Nat → ℚ)
    (chunks : List HChunk) (h : ∀ c ∈ chunks, c.start_char < c.end_char) :
    ∀ c ∈ optimize_chunks_semantically cosM chunks,
      c.start_char < c.end_char := by
  intro c hc
  unfold optimize_chunks_semantically at hc
  split at hc
  · exact h c hc
  · rw [optimizeChunksAux_eq_groups] at hc
    rw [List.mem_map] at hc
    obtain ⟨g, hg, rfl⟩ := hc
    have hb := optimizeGroupsAux_anchor_bound _ _ _ _ _ g hg
    obtain ⟨i, js⟩ := g
    obtain ⟨d, hd, h1, h2⟩ := renderHGroup_start_end chunks i js (by simpa using hb.2)
    rw [h1, h2]
    exact h d hd

/-- C6 (corrected, amended claim): every produced chunk satisfies
    `start_offset < end_offset`: in the sentence-accumulating assembler of
    `advanced_document_processor.py` — where the start offsets are in
    addition monotonically non-decreasing in `chunk_index` order — and in
    the find-based assembler of `advanced-document-processor.py`, both
    before and after semantic consolidation.  Monotonicity of `start_char`
    fails for the find-based assembler on repeating content (see the
    counterexample). -/
theorem chunk_offset_invariants :
    (∀ (docId : Str) (sentences : List Str),
      (∀ c ∈ create_intelligent_chunks docId sentences,
        c.start_position < c.end_position)
      ∧ (create_intelligent_chunks docId sentences).Pairwise
          (fun a b => a.start_position ≤ b.start_position))
    ∧ (∀ (caps : HCaps) (σ : List Str → List Str) (content docId : Str)
        (bcs : List Str),
        ∀ c ∈ hAnnotateChunks caps σ content docId bcs, c.start_char < c.end_char)
    ∧ (∀ (caps : HCaps) (σ : List Str → List Str)
        (cosM : List (List ℚ) → Nat → Nat → ℚ) (content docId : Str)
        (bcs : List Str),
        ∀ c ∈ hCreateIntelligentChunks caps σ cosM content docId bcs,
          c.start_char < c.end_char) := by
  refine ⟨?_, ?_, ?_⟩
  · intro docId sentences
    constructor
    · exact fun c hc => (intelligentChunksAux_offsets docId sentences [] 0 0 c hc).2
    · apply pairwise_of_all
      intro a ha b hb
      have h1 := (intelligentChunksAux_offsets docId sentences [] 0 0 a ha).1
      have h2 := (intelligentChunksAux_offsets docId sentences [] 0 0 b hb).1
      omega
  · exact hAnnotateChunks_offsets
  · intro caps σ cosM content docId bcs c hc
    exact optimize_preserves_offsets cosM _
      (hAnnotateChunks_offsets caps σ content docId bcs) c hc

theorem chunk_offset_invariants_witness :
    (create_intelligent_chunks "d".data ["ab".data, "cd".data]).Pairwise
      (fun a b => a.start_position ≤ b.start_position) :=
  (chunk_offset_invariants.1 "d".data ["ab".data, "cd".data]).2

/-- C6 counterexample: the find-based assembler recovers offsets with
    `content.find(chunk_text)`, which returns the first occurrence.  On the
    document `"xA AB xA"` decomposed (in document order) into
    `["xA", "AB", "xA"]`, the recovered start offsets are `[0, 3, 0]` — not
    monotonically non-decreasing. -/
theorem chunk_offset_invariants_cex :
    ¬ (hCreateIntelligentChunks capsTriv id cosZero "xA AB xA".data "d".data
        ["xA".data, "AB".data, "xA".data]).Pairwise
      (fun a b => a.start_char ≤ b.start_char) := by decide

/-! ## The consolidation partition (C1) -/

theorem filter_split_perm (R used sims : List Nat) (q : Nat → Bool)
    (hsims : sims = R.filter (fun j => decide (j ∉ used) && q j)) :
    (sims ++ R.filter (fun j => decide (j ∉ used ++ sims))).Perm
      (R.filter (fun j => decide (j ∉ used))) := by
  have h2 : sims = (R.filter (fun j => decide (j ∉ used))).filter q := by
    rw [hsims, List.filter_filter]
    apply List.filter_congr
    intro j _
    exact Bool.and_comm _ _
  have h1 : R.filter (fun j => decide (j ∉ used ++ sims))
      = (R.filter (fun j => decide (j ∉ used))).filter (fun j => !(q j)) := by
    rw [List.filter_filter]
    apply List.filter_congr
    intro j hj
    by_cases hu : j ∈ used
    · simp [hu, List.mem_append]
    · by_cases hq : q j = true
      · have hjs : j ∈ sims := by
          rw [hsims, List.mem_filter]
          exact ⟨hj, by simp [hu, hq]⟩
        simp [hu, hq, List.mem_append, hjs]
      · have hjs : j ∉ sims := by
          rw [hsims, List.mem_filter]
          rintro ⟨-, hb⟩
          simp only [Bool.and_eq_true, decide_eq_true_eq] at hb
          exact hq hb.2
        simp [hu, List.mem_append, hjs, hq]
  rw [h1]
  nth_rewrite 1 [h2]
  exact List.filter_append_perm q _

theorem optimizeGroupsAux_flatten_perm (sim : Nat → Nat → ℚ) (n : Nat) :
    ∀ (fuel i : Nat) (used : List Nat), i + fuel = n →
      (((optimizeGroupsAux sim n fuel i used).map (fun g => g.1 :: g.2)).flatten).Perm
        ((List.range' i fuel).filter (fun j => decide (j ∉ used))) := by
  intro fuel
  induction fuel with
  | zero => intro i used _; simp [optimizeGroupsAux]
  | succ f ih =>
    intro i used hn
    have hrange : List.range' i (f + 1) = i :: List.range' (i + 1) f :=
      List.range'_succ i f 1
    simp only [optimizeGroupsAux]
    by_cases hi : i ∈ used
    · rw [if_pos hi, hrange, List.filter_cons, if_neg (by simp [hi])]
      exact ih (i + 1) used (by omega)
    · rw [if_neg hi, hrange, List.filter_cons, if_pos (by simp [hi])]
      simp only [List.map_cons, List.flatten_cons, List.cons_append]
      refine List.Perm.cons i ?_
      refine (List.Perm.append_left _ (ih (i + 1) _ (by omega))).trans ?_
      apply filter_split_perm
      unfold similarIndices
      have hnf : n - (i + 1) = f := by omega
      rw [hnf]

theorem consumedIds_cons (c : HChunk) (l : List HChunk) :
    consumedIds (c :: l)
      = (if c.merged_from.isEmpty then [c.chunk_id] else c.merged_from)
        ++ consumedIds l := by
  simp [consumedIds]

theorem consumedIds_render (chunks : List HChunk)
    (hmf : ∀ c ∈ chunks, c.merged_from = []) :
    ∀ G : List (Nat × List Nat), (∀ g ∈ G, g.1 < chunks.length) →
      consumedIds (G.map (renderHGroup chunks))
        = ((G.map (fun g => g.1 :: g.2)).flatten).map
            (fun k => (chunks.getD k emptyHChunk).chunk_id) := by
  intro G
  induction G with
  | nil => intro _; rfl
  | cons g Gs ih =>
    intro hG
    have hg1 : g.1 < chunks.length := hG g (List.mem_cons_self g Gs)
    have hrest : ∀ g' ∈ Gs, g'.1 < chunks.length :=
      fun g' h => hG g' (List.mem_cons_of_mem g h)
    obtain ⟨i, js⟩ := g
    rw [List.map_cons, consumedIds_cons, List.map_cons, List.flatten_cons,
      List.map_append, ih hrest]
    congr 1
    cases js with
    | nil =>
      have hmem : chunks.getD i emptyHChunk ∈ chunks := by
        rw [List.getD_eq_getElem _ _ hg1]
        exact List.getElem_mem hg1
      have hmfi : (chunks.getD i emptyHChunk).merged_from = [] := hmf _ hmem
      rw [show renderHGroup chunks (i, []) = chunks.getD i emptyHChunk from rfl, hmfi]
      rfl
    | cons j js' => simp [renderHGroup]

theorem map_range_getD {β : Type _} (f : HChunk → β) :
    ∀ l : List HChunk,
      (List.range l.length).map (fun i => f (l.getD i emptyHChunk)) = l.map f := by
  intro l
  apply List.ext_getElem
  · simp
  · intro i h1 h2
    simp only [List.getElem_map, List.getElem_range]
    rw [List.getD_eq_getElem]

theorem sourceRefCount_eq (l : List HChunk) :
    sourceRefCount l = (consumedIds l).length := by
  induction l with
  | nil => rfl
  | cons c t ih =>
    rw [consumedIds_cons, List.length_append]
    simp only [sourceRefCount, List.map_cons, List.sum_cons] at ih ⊢
    rw [ih]
    by_cases hc : c.merged_from.isEmpty <;> simp [hc]

/-- C1 (confirmed): consolidation partitions the input.  The output of
    `_optimize_chunks_semantically` is the rendering of its greedy group
    decomposition, groups are emitted in strictly increasing anchor-index
    order, the multiset of source chunk ids referenced across all
    `merged_from` lists plus singleton passthroughs is a permutation of the
    input chunk ids (every input chunk consumed exactly once, no loss, no
    duplication), and the total source-reference count equals the
    pre-consolidation chunk count. -/
theorem consolidation_partition (cosM : List (List ℚ) → Nat → Nat → ℚ)
    (chunks : List HChunk) (hmf : ∀ c ∈ chunks, c.merged_from = []) :
    optimize_chunks_semantically cosM chunks
        = (hGroups cosM chunks).map (renderHGroup chunks)
    ∧ ((hGroups cosM chunks).map Prod.fst).Pairwise (· < ·)
    ∧ (consumedIds (optimize_chunks_semantically cosM chunks)).Perm
        (chunks.map (fun c => c.chunk_id))
    ∧ sourceRefCount (optimize_chunks_semantically cosM chunks)
        = chunks.length := by
  have hgr : ∀ g ∈ hGroups cosM chunks, g.1 < chunks.length := by
    intro g hg
    unfold hGroups at hg
    have := optimizeGroupsAux_anchor_bound
      (cosM (chunks.map (fun c => c.semantic_embedding.getD [])))
      chunks.length chunks.length 0 [] g hg
    omega
  have heq : optimize_chunks_semantically cosM chunks
      = (hGroups cosM chunks).map (renderHGroup chunks) := by
    rcases chunks with _ | ⟨a, _ | ⟨b, t⟩⟩
    · rfl
    · simp [optimize_chunks_semantically, hGroups, optimizeGroupsAux,
        similarIndices, renderHGroup]
    · have hlen : ¬ (a :: b :: t).length ≤ 1 := by simp
      unfold optimize_chunks_semantically hGroups
      rw [if_neg hlen]
      exact optimizeChunksAux_eq_groups (a :: b :: t) _ (a :: b :: t).length 0 []
  have hperm : (consumedIds (optimize_chunks_semantically cosM chunks)).Perm
      (chunks.map (fun c => c.chunk_id)) := by
    rw [heq, consumedIds_render chunks hmf _ hgr]
    have hflat := optimizeGroupsAux_flatten_perm
      (cosM (chunks.map (fun c => c.semantic_embedding.getD [])))
      chunks.length chunks.length 0 [] (by omega)
    have h2 : (((hGroups cosM chunks).map (fun g => g.1 :: g.2)).flatten).Perm
        (List.range chunks.length) := by
      refine hflat.trans ?_
      rw [List.range_eq_range']
      have hc : ∀ j ∈ List.range' 0 chunks.length,
          (decide (j ∉ ([] : List Nat))) = (fun _ : Nat => true) j := by simp
      rw [List.filter_congr hc, List.filter_true]
    have := h2.map (fun k => (chunks.getD k emptyHChunk).chunk_id)
    rw [map_range_getD] at this
    exact this
  refine ⟨heq, ?_, hperm, ?_⟩
  · exact optimizeGroupsAux_anchors_sorted _ _ _ _ _
  · rw [sourceRefCount_eq, hperm.length_eq, List.length_map]

theorem consolidation_partition_witness :
    sourceRefCount (optimize_chunks_semantically cosOne [hcA, hcB])
      = ([hcA, hcB] : List HChunk).length :=
  (consolidation_partition cosOne [hcA, hcB] (by decide)).2.2.2

/-! ## Merged-chunk fields (C3) and the membership rule (C4) -/

theorem foldl_append_acc {β : Type _} (g : ChunkMetadata → List β) :
    ∀ (l : List ChunkMetadata) (acc : List β),
      l.foldl (fun a m => a ++ g m) acc = acc ++ (l.map g).flatten := by
  intro l
  induction l with
  | nil => intro acc; simp
  | cons m t ih =>
    intro acc
    simp only [List.foldl_cons, List.map_cons, List.flatten_cons]
    rw [ih, List.append_assoc]

theorem mem_foldl_append {β : Type _} (g : ChunkMetadata → List β)
    (l : List ChunkMetadata) (acc : List β) (x : β) :
    x ∈ l.foldl (fun a m => a ++ g m) acc ↔ x ∈ acc ∨ ∃ c ∈ l, x ∈ g c := by
  rw [foldl_append_acc, List.mem_append, List.mem_flatten]
  constructor
  · rintro (h | ⟨a, ha, hx⟩)
    · exact Or.inl h
    · rw [List.mem_map] at ha
      obtain ⟨c, hc, rfl⟩ := ha
      exact Or.inr ⟨c, hc, hx⟩
  · rintro (h | ⟨c, hc, hx⟩)
    · exact Or.inl h
    · exact Or.inr ⟨g c, List.mem_map_of_mem g hc, hx⟩

theorem intercalate_space (x : Str) (xs : List Str) :
    List.intercalate [' '] (x :: xs) = x ++ (xs.map (fun y => ' ' :: y)).flatten := by
  induction xs generalizing x with
  | nil => simp [List.intercalate]
  | cons y ys ih =>
    have h1 : List.intercalate [' '] (x :: y :: ys)
        = x ++ [' '] ++ List.intercalate [' '] (y :: ys) := by
      simp [List.intercalate, List.intersperse]
    rw [h1, ih y]
    simp [List.append_assoc]

theorem foldl_max_le_self :
    ∀ (l : List ChunkMetadata) (acc : ℚ),
      acc ≤ l.foldl (fun a m => max a m.importance_score) acc := by
  intro l
  induction l with
  | nil => intro acc; exact le_refl acc
  | cons m t ih =>
    intro acc
    exact le_trans (le_max_left _ _) (ih (max acc m.importance_score))

theorem foldl_max_mem_le :
    ∀ (l : List ChunkMetadata) (acc : ℚ) (c : ChunkMetadata), c ∈ l →
      c.importance_score ≤ l.foldl (fun a m => max a m.importance_score) acc := by
  intro l
  induction l with
  | nil => intro acc c hc; simp at hc
  | cons m t ih =>
    intro acc c hc
    rcases List.mem_cons.mp hc with rfl | hc'
    · exact le_trans (le_max_right _ _) (foldl_max_le_self t _)
    · exact ih _ c hc'

theorem foldl_max_eq_or :
    ∀ (l : List ChunkMetadata) (acc : ℚ),
      l.foldl (fun a m => max a m.importance_score) acc = acc
      ∨ ∃ c ∈ l, l.foldl (fun a m => max a m.importance_score) acc
          = c.importance_score := by
  intro l
  induction l with
  | nil => intro acc; exact Or.inl rfl
  | cons m t ih =>
    intro acc
    rcases ih (max acc m.importance_score) with h | ⟨c, hc, h⟩
    · rcases max_choice acc m.importance_score with hm | hm
      · left; rw [List.foldl_cons, h, hm]
      · right
        exact ⟨m, List.mem_cons_self m t, by rw [List.foldl_cons, h, hm]⟩
    · right
      exact ⟨c, List.mem_cons_of_mem m hc, by rw [List.foldl_cons]; exact h⟩

theorem mem_pySetList (σ : List Str → List Str)
    (hσ : ∀ l : List Str, (σ l).Perm l) (xs : List Str) (x : Str) :
    x ∈ pySetList σ xs ↔ x ∈ xs := by
  unfold pySetList
  rw [(hσ xs.dedup).mem_iff, List.mem_dedup]

/-- C3 (confirmed): for every merge-group with a non-empty member list, the
    consolidated chunk's content is the space-joined concatenation of the
    group's contents in source order, its entity / keyword / legal-term /
    reference collections are (as sets) the unions of the members', and its
    importance score is the maximum across the group.  In
    `_optimize_chunks_semantically` the merged chunk carries `merged_from`
    listing the source chunk ids in order, and a singleton group passes the
    chunk through unchanged, keeping `merged_from` empty. -/
theorem merged_chunk_fields (σ : List Str → List Str)
    (hσ : ∀ l : List Str, (σ l).Perm l) (anchor : ChunkMetadata)
    (members : List ChunkMetadata) (_hm : members ≠ []) :
    (mergeGroup σ anchor members).content
        = List.intercalate [' '] ((anchor :: members).map (fun c => c.content))
    ∧ (∀ e, e ∈ (mergeGroup σ anchor members).entities ↔
        e ∈ anchor.entities ∨ ∃ c ∈ members, e ∈ c.entities)
    ∧ (∀ k, k ∈ (mergeGroup σ anchor members).keywords ↔
        k ∈ anchor.keywords ∨ ∃ c ∈ members, k ∈ c.keywords)
    ∧ (∀ t, t ∈ (mergeGroup σ anchor members).legal_terms ↔
        t ∈ anchor.legal_terms ∨ ∃ c ∈ members, t ∈ c.legal_terms)
    ∧ (∀ r, r ∈ (mergeGroup σ anchor members).case_references ↔
        r ∈ anchor.case_references ∨ ∃ c ∈ members, r ∈ c.case_references)
    ∧ (∀ r, r ∈ (mergeGroup σ anchor members).statute_references ↔
        r ∈ anchor.statute_references ∨ ∃ c ∈ members, r ∈ c.statute_references)
    ∧ anchor.importance_score ≤ (mergeGroup σ anchor members).importance_score
    ∧ (∀ c ∈ members,
        c.importance_score ≤ (mergeGroup σ anchor members).importance_score)
    ∧ ((mergeGroup σ anchor members).importance_score = anchor.importance_score
        ∨ ∃ c ∈ members,
            (mergeGroup σ anchor members).importance_score = c.importance_score)
    ∧ (∀ (chunks : List HChunk) (i j : Nat) (js : List Nat),
        (renderHGroup chunks (i, j :: js)).merged_from
          = (i :: j :: js).map (fun k => (chunks.getD k emptyHChunk).chunk_id))
    ∧ (∀ (chunks : List HChunk) (i : Nat),
        renderHGroup chunks (i, []) = chunks.getD i emptyHChunk) := by
  refine ⟨?_, ?_, ?_, ?_, ?_, ?_, ?_, ?_, ?_, ?_, ?_⟩
  · show members.foldl (fun acc m => acc ++ ' ' :: m.content) anchor.content = _
    rw [List.map_cons, intercalate_space,
      foldl_append_acc (fun m => ' ' :: m.content), List.map_map]
    rfl
  · exact fun e => mem_foldl_append (fun c => c.entities) members anchor.entities e
  · intro k
    show k ∈ pySetList σ
      (members.foldl (fun acc m => acc ++ m.keywords) anchor.keywords) ↔ _
    rw [mem_pySetList σ hσ]
    exact mem_foldl_append (fun c => c.keywords) members anchor.keywords k
  · intro t
    show t ∈ pySetList σ
      (members.foldl (fun acc m => acc ++ m.legal_terms) anchor.legal_terms) ↔ _
    rw [mem_pySetList σ hσ]
    exact mem_foldl_append (fun c => c.legal_terms) members anchor.legal_terms t
  · intro r
    show r ∈ pySetList σ
      (members.foldl (fun acc m => acc ++ m.case_references)
        anchor.case_references) ↔ _
    rw [mem_pySetList σ hσ]
    exact mem_foldl_append (fun c => c.case_references) members
      anchor.case_references r
  · intro r
    show r ∈ pySetList σ
      (members.foldl (fun acc m => acc ++ m.statute_references)
        anchor.statute_references) ↔ _
    rw [mem_pySetList σ hσ]
    exact mem_foldl_append (fun c => c.statute_references) members
      anchor.statute_references r
  · exact foldl_max_le_self members anchor.importance_score
  · exact fun c hc => foldl_max_mem_le members anchor.importance_score c hc
  · exact foldl_max_eq_or members anchor.importance_score
  · intro chunks i j js; rfl
  · intro chunks i; rfl

theorem merged_chunk_fields_witness :
    (mergeGroup id cmA [cmB]).content
      = List.intercalate [' ']
          (([cmA, cmB] : List ChunkMetadata).map (fun c => c.content)) :=
  (merged_chunk_fields id (fun l => List.Perm.refl l) cmA [cmB] (by decide)).1

/-- C4 (confirmed): during consolidation a chunk `j` joins the group anchored
    at `i` iff `j > i`, `j` is in range, `j` has not been consumed by an
    earlier group, and the cosine similarity with the anchor `i` strictly
    exceeds the threshold `0.8`; `_merge_chunks` renders exactly these
    greedy groups; and membership is tested only against the anchor — in the
    concrete run `sim3`, chunks 1 and 2 both join anchor 0's group although
    their mutual similarity does not exceed the threshold. -/
theorem merge_membership_rule :
    (∀ (sim : Nat → Nat → ℚ) (used : List Nat) (n i j : Nat),
      j ∈ similarIndices sim used n i ↔
        i < j ∧ j < n ∧ j ∉ used ∧ simThreshold < sim i j)
    ∧ (∀ (σ : List Str → List Str) (chunks : List ChunkMetadata)
        (sim : Nat → Nat → ℚ) (fuel i : Nat) (used : List Nat),
        mergeChunksAux σ chunks sim fuel i used
          = (mergeGroupsAux sim chunks.length fuel i used).map
              (renderUGroup σ chunks))
    ∧ mergeGroupsAux sim3 3 3 0 [] = [(0, [1, 2])]
    ∧ ¬ simThreshold < sim3 1 2 := by
  refine ⟨?_, ?_, by decide, by decide⟩
  · intro sim used n i j
    unfold similarIndices
    rw [List.mem_filter, List.mem_range'_1]
    simp only [Bool.and_eq_true, decide_eq_true_eq]
    constructor
    · rintro ⟨⟨h1, h2⟩, h3, h4⟩
      exact ⟨by omega, by omega, h3, h4⟩
    · rintro ⟨h1, h2, h3, h4⟩
      exact ⟨⟨by omega, by omega⟩, h3, h4⟩
  · intro σ chunks sim fuel
    induction fuel with
    | zero => intro i used; rfl
    | succ f ih =>
      intro i used
      simp only [mergeChunksAux, mergeGroupsAux]
      split
      · exact ih (i + 1) used
      · cases hs : similarIndices sim used chunks.length i with
        | nil =>
          simp only [List.isEmpty_nil, if_true, List.map_cons, List.append_nil]
          rw [ih (i + 1) (i :: used)]
          rfl
        | cons j js =>
          simp only [List.isEmpty_cons, List.map_cons]
          rw [if_neg (by simp)]
          rw [ih (i + 1) (i :: used ++ j :: js)]
          rfl

/-! ## Query ranking (C5) -/

theorem insertDesc_perm (x : ℚ × HChunk) :
    ∀ l, (insertDesc x l).Perm (x :: l) := by
  intro l
  induction l with
  | nil => exact List.Perm.refl _
  | cons y ys ih =>
    simp only [insertDesc]
    split
    · exact List.Perm.refl _
    · exact (List.Perm.cons y ih).trans (List.Perm.swap x y ys)

theorem sortDesc_perm : ∀ l, (sortDesc l).Perm l := by
  intro l
  induction l with
  | nil => exact List.Perm.refl _
  | cons x xs ih =>
    exact (insertDesc_perm x (sortDesc xs)).trans (List.Perm.cons x ih)

theorem insertDesc_pairwise (x : ℚ × HChunk) :
    ∀ l, l.Pairwise (fun a b => b.1 ≤ a.1) →
      (insertDesc x l).Pairwise (fun a b => b.1 ≤ a.1) := by
  intro l
  induction l with
  | nil => intro _; exact List.pairwise_singleton _ _
  | cons y ys ih =>
    intro h
    rw [List.pairwise_cons] at h
    obtain ⟨hy, hys⟩ := h
    simp only [insertDesc]
    split
    · next hle =>
      rw [List.pairwise_cons]
      refine ⟨?_, List.pairwise_cons.mpr ⟨hy, hys⟩⟩
      intro z hz
      rcases List.mem_cons.mp hz with rfl | hz'
      · exact hle
      · exact le_trans (hy z hz') hle
    · next hgt =>
      rw [List.pairwise_cons]
      refine ⟨?_, ih hys⟩
      intro z hz
      have hz2 := (insertDesc_perm x ys).mem_iff.mp hz
      rcases List.mem_cons.mp hz2 with rfl | hz'
      · exact le_of_not_le hgt
      · exact hy z hz'

theorem sortDesc_pairwise :
    ∀ l, (sortDesc l).Pairwise (fun a b => b.1 ≤ a.1) := by
  intro l
  induction l with
  | nil => exact List.Pairwise.nil
  | cons x xs ih => exact insertDesc_pairwise x (sortDesc xs) ih

theorem insertDesc_filter_key (x : ℚ × HChunk) (s : ℚ) :
    ∀ m, (insertDesc x m).filter (fun q => decide (q.1 = s))
      = if x.1 = s then x :: m.filter (fun q => decide (q.1 = s))
        else m.filter (fun q => decide (q.1 = s)) := by
  intro m
  induction m with
  | nil =>
    by_cases hx : x.1 = s <;> simp [insertDesc, List.filter_cons, hx]
  | cons y ys ih =>
    simp only [insertDesc]
    split
    · next hle =>
      by_cases hx : x.1 = s <;> simp [List.filter_cons, hx]
    · next hgt =>
      have hxy : x.1 < y.1 := lt_of_not_le hgt
      by_cases hx : x.1 = s <;> by_cases hy : y.1 = s
      · exfalso
        rw [hx, hy] at hxy
        exact lt_irrefl s hxy
      · simp [List.filter_cons, hx, hy, ih]
      · simp [List.filter_cons, hx, hy, ih]
      · simp [List.filter_cons, hx, hy, ih]

theorem sortDesc_filter_key (s : ℚ) :
    ∀ l, (sortDesc l).filter (fun q => decide (q.1 = s))
      = l.filter (fun q => decide (q.1 = s)) := by
  intro l
  induction l with
  | nil => rfl
  | cons x xs ih =>
    show (insertDesc x (sortDesc xs)).filter _ = _
    rw [insertDesc_filter_key, List.filter_cons]
    by_cases hx : x.1 = s <;> simp [hx, ih]

/-- C5 (corrected, amended claim): for `top_k ≥ 0`, `search_similar_chunks`
    returns the first `top_k` chunks of the stable descending-by-similarity
    ranking of the candidates (chunks with a truthy embedding): at most
    `top_k` results, the ranking is a permutation of the candidate list,
    scores are descending, equal scores keep the original candidate order,
    and `top_k` at least the candidate count returns the whole ranking.
    (The "`top_k ≤ 0` yields an empty sequence" part of the original claim
    holds only for `top_k = 0` — see the counterexample for `top_k < 0`,
    where the Python slice `[:top_k]` drops the last `|top_k|` instead.) -/
theorem search_ranking (cosPair : List ℚ → List ℚ → ℚ)
    (queryEmbedding : List ℚ) (chunks : List HChunk) (topK : Int)
    (hk : 0 ≤ topK) :
    search_similar_chunks cosPair queryEmbedding chunks topK
        = ((sortDesc (searchSimilarities cosPair queryEmbedding chunks)).take
            topK.toNat).map Prod.snd
    ∧ (search_similar_chunks cosPair queryEmbedding chunks topK).length
        ≤ topK.toNat
    ∧ (sortDesc (searchSimilarities cosPair queryEmbedding chunks)).Perm
        (searchSimilarities cosPair queryEmbedding chunks)
    ∧ (sortDesc (searchSimilarities cosPair queryEmbedding chunks)).Pairwise
        (fun a b => b.1 ≤ a.1)
    ∧ (∀ s : ℚ,
        (sortDesc (searchSimilarities cosPair queryEmbedding chunks)).filter
            (fun q => decide (q.1 = s))
          = (searchSimilarities cosPair queryEmbedding chunks).filter
              (fun q => decide (q.1 = s)))
    ∧ ((searchSimilarities cosPair queryEmbedding chunks).length ≤ topK.toNat →
        search_similar_chunks cosPair queryEmbedding chunks topK
          = (sortDesc (searchSimilarities cosPair queryEmbedding chunks)).map
              Prod.snd) := by
  have heq : search_similar_chunks cosPair queryEmbedding chunks topK
      = ((sortDesc (searchSimilarities cosPair queryEmbedding chunks)).take
          topK.toNat).map Prod.snd := by
    unfold search_similar_chunks
    split
    · next hch =>
      have hnil : chunks = [] := by simpa [List.isEmpty_iff] using hch
      subst hnil
      simp [searchSimilarities, sortDesc]
    · unfold pySliceTo
      rw [if_pos hk]
  refine ⟨heq, ?_, sortDesc_perm _, sortDesc_pairwise _,
    fun s => sortDesc_filter_key s _, ?_⟩
  · rw [heq, List.length_map]
    exact List.length_take_le _ _
  · intro hlen
    rw [heq, List.take_of_length_le]
    rw [(sortDesc_perm _).length_eq]
    exact hlen

theorem search_ranking_witness :
    (search_similar_chunks cosPick [] [hcA, hcB] 2).length ≤ (2 : Int).toNat :=
  (search_ranking cosPick [] [hcA, hcB] 2 (by decide)).2.1

/-- C5 counterexample: the claim "`top_k ≤ 0` yields an empty sequence"
    fails for negative `top_k`: with two embedded chunks and `top_k = -1`
    the Python slice `similarities[:-1]` keeps the best-ranked chunk. -/
theorem search_ranking_cex :
    search_similar_chunks cosPick [] [hcA, hcB] (-1) = [hcA]
    ∧ ([hcA] : List HChunk) ≠ [] := by
  refine ⟨by decide, by decide⟩

/-! ## Empty-document failure (C7) -/

/-- C7 (confirmed): a whitespace-only document produces zero chunks and a
    structured failure record rather than an exception: `process_document`
    of `advanced-document-processor.py` returns `success = false` with the
    message `"No content extracted from document"` and no chunks, and
    `process_document` of `python-document-processor.py` catches its own
    `ValueError` and returns the error record
    `"No text content provided"` with zero chunks. -/
theorem empty_document_failure :
    (∀ (caps : HCaps) (σ : List Str → List Str)
        (cosM : List (List ℚ) → Nat → Nat → ℚ) (docId : Str) (md : HMetadata)
        (bco : Str → List Str) (content : Str),
        (pyStrip content).isEmpty = true →
        (process_document_h caps σ cosM (Except.ok (content, md)) docId bco).success
            = false
        ∧ (process_document_h caps σ cosM (Except.ok (content, md)) docId bco).chunks
            = []
        ∧ (process_document_h caps σ cosM
            (Except.ok (content, md)) docId bco).error_message
            = some "No content extracted from document")
    ∧ (∀ (segment : Str → List Str) (render : List PyChunk → Str) (text : Str)
        (maxC ovl : Nat),
        (pyStrip text).isEmpty = true →
        process_document_py segment render text maxC ovl
          = pyErrorResult "No text content provided") := by
  constructor
  · intro caps σ cosM docId md bco content h
    simp only [process_document_h]
    rw [if_pos h]
    exact ⟨rfl, rfl, rfl⟩
  · intro segment render text maxC ovl h
    unfold process_document_py
    rw [if_pos h]

theorem empty_document_failure_witness :
    (process_document_h capsTriv id cosZero (Except.ok ("  ".data, mdNone))
        "d".data (fun _ => [])).success = false
    ∧ (process_document_py (fun _ => []) (fun _ => []) " ".data 1000 200).error
        = some "No text content provided" := by
  constructor
  · exact (empty_document_failure.1 capsTriv id cosZero "d".data mdNone
      (fun _ => []) "  ".data (by decide)).1
  · rw [empty_document_failure.2 (fun _ => []) (fun _ => []) " ".data 1000 200
      (by decide)]
    rfl

/-! ## Sentiment classification (C8) -/

/-- C8 (corrected, amended claim): sentiment is decided by the number of
    *distinct lexicon words present* (as substrings) in the lower-cased
    content, not by total occurrence counts: `positive` iff strictly more
    positive-lexicon words than negative-lexicon words occur, `negative` iff
    the reverse, `neutral` iff the presence counts tie. -/
theorem sentiment_classification (text : Str) :
    (analyze_sentiment text = "positive" ↔
      (negative_words.filter (fun w => pySubstr w (pyLower text))).length
        < (positive_words.filter (fun w => pySubstr w (pyLower text))).length)
    ∧ (analyze_sentiment text = "negative" ↔
      (positive_words.filter (fun w => pySubstr w (pyLower text))).length
        < (negative_words.filter (fun w => pySubstr w (pyLower text))).length)
    ∧ (analyze_sentiment text = "neutral" ↔
      (positive_words.filter (fun w => pySubstr w (pyLower text))).length
        = (negative_words.filter (fun w => pySubstr w (pyLower text))).length) := by
  unfold analyze_sentiment
  set p := (positive_words.filter (fun w => pySubstr w (pyLower text))).length
  set n := (negative_words.filter (fun w => pySubstr w (pyLower text))).length
  rcases Nat.lt_trichotomy n p with h | h | h
  · rw [if_pos h]
    refine ⟨⟨fun _ => h, fun _ => rfl⟩, ?_, ?_⟩
    · constructor
      · intro hc; exact absurd hc (by decide)
      · intro hlt; exact absurd hlt (by omega)
    · constructor
      · intro hc; exact absurd hc (by decide)
      · intro he; exact absurd he (by omega)
  · rw [if_neg (by omega), if_neg (by omega)]
    refine ⟨?_, ?_, ⟨fun _ => by omega, fun _ => rfl⟩⟩
    · constructor
      · intro hc; exact absurd hc (by decide)
      · intro hlt; exact absurd hlt (by omega)
    · constructor
      · intro hc; exact absurd hc (by decide)
      · intro hlt; exact absurd hlt (by omega)
  · rw [if_neg (by omega), if_pos h]
    refine ⟨?_, ⟨fun _ => h, fun _ => rfl⟩, ?_⟩
    · constructor
      · intro hc; exact absurd hc (by decide)
      · intro hlt; exact absurd hlt (by omega)
    · constructor
      · intro hc; exact absurd hc (by decide)
      · intro he; exact absurd he (by omega)

/-- C8 counterexample: on `"good good bad adverse"` the occurrence counts of
    the two lexicons tie (2 vs 2), so the claim as stated predicts
    `neutral` — the code returns `negative` (presence counts 1 vs 2). -/
theorem sentiment_classification_cex :
    analyze_sentiment "good good bad adverse".data = "negative"
    ∧ ¬ (specOccurrenceCount positive_words "good good bad adverse".data
          < specOccurrenceCount negative_words "good good bad adverse".data) := by
  refine ⟨by decide, by decide⟩

/-! ## Determinism of assembly + annotation (C9) -/

theorem filterMap_map_eq {α β γ : Type _} (F G : α → Option β) (proj : β → γ)
    (h : ∀ a, (F a).map proj = (G a).map proj) :
    ∀ l : List α, (l.filterMap F).map proj = (l.filterMap G).map proj := by
  intro l
  induction l with
  | nil => rfl
  | cons a t ih =>
    rw [List.filterMap_cons, List.filterMap_cons]
    have ha := h a
    cases hF : F a with
    | none =>
      cases hG : G a with
      | none => exact ih
      | some b =>
        rw [hF, hG] at ha
        simp at ha
    | some b =>
      cases hG : G a with
      | none =>
        rw [hF, hG] at ha
        simp at ha
      | some b' =>
        rw [hF, hG] at ha
        simp only [Option.map_some'] at ha
        rw [List.map_cons, List.map_cons, ih]
        congr 1
        exact Option.some.inj ha

/-- C9 (corrected, amended claim): with the document, configuration,
    capabilities AND the set-enumeration (hash) order all fixed, two runs of
    assembly + annotation are byte-identical; and regardless of the
    enumeration order, the contents, offsets, chunk indices and entity lists
    agree.  Byte-identity fails across enumeration orders — see the
    counterexample — because `list(set(...))` ordering leaks into the
    keyword lists. -/
theorem set_order_determinism (caps : HCaps) (σ₁ σ₂ : List Str → List Str)
    (content docId : Str) (basicChunks : List Str) :
    (σ₁ = σ₂ →
      hAnnotateChunks caps σ₁ content docId basicChunks
        = hAnnotateChunks caps σ₂ content docId basicChunks)
    ∧ (hAnnotateChunks caps σ₁ content docId basicChunks).map
        (fun c => (c.content, c.start_char, c.end_char, c.chunk_index, c.entities))
      = (hAnnotateChunks caps σ₂ content docId basicChunks).map
          (fun c => (c.content, c.start_char, c.end_char, c.chunk_index, c.entities)) := by
  constructor
  · intro h; subst h; rfl
  · unfold hAnnotateChunks
    apply filterMap_map_eq
    intro p
    by_cases hb : (pyStrip p.2).isEmpty
    · simp [hb]
    · simp [hb]

theorem set_order_determinism_witness :
    hAnnotateChunks capsKW id "t".data "d".data ["t".data]
      = hAnnotateChunks capsKW id "t".data "d".data ["t".data] :=
  (set_order_determinism capsKW id id "t".data "d".data ["t".data]).1 rfl

/-- C9 counterexample: two runs that differ only in the set-enumeration
    order (both orders realisable under Python's randomized string hashing)
    produce different chunk records: the keyword list comes out as
    `["alpha", "beta"]` in one run and `["beta", "alpha"]` in the other. -/
theorem set_order_determinism_cex :
    hAnnotateChunks capsKW id "t".data "d".data ["t".data]
      ≠ hAnnotateChunks capsKW List.reverse "t".data "d".data ["t".data] := by
  decide

/-! ## Exception passthrough in `_merge_chunks` (C10) -/

/-- C10 (confirmed): `_merge_chunks` never raises to its caller — its body
    is wrapped in `try/except` returning the input on failure.  The only
    statement of the body that can raise on well-typed input is
    `cosine_similarity(embeddings)`, modelled as the `Except`-valued
    capability: whenever it fails, the input chunk list is returned
    unchanged. -/
theorem merge_chunks_exception_passthrough (σ : List Str → List Str)
    (cosineMatrix : List (List ℚ) → Except String (Nat → Nat → ℚ))
    (chunks : List ChunkMetadata) (embeddings : List (List ℚ)) (msg : String)
    (h : cosineMatrix embeddings = Except.error msg) :
    merge_chunks σ cosineMatrix chunks embeddings = chunks := by
  unfold merge_chunks
  split
  · rfl
  · rw [h]

theorem merge_chunks_exception_passthrough_witness :
    merge_chunks id cosErr [cmA, cmB] [] = [cmA, cmB] :=
  merge_chunks_exception_passthrough id cosErr [cmA, cmB] [] _ rfl

end LegL
